import Mathlib

/-!
Verification development for the dataset quality-assessment engine
(`services/quality.py`, `services/plotting.py`, `api/quality.py`).

The Python source is shallowly embedded: floats are modelled by exact
rationals (`ℚ`) where the code only does field arithmetic and comparisons,
and by `ℝ` where square roots or logarithms occur; Python `round` (banker's
rounding, round-half-to-even) is modelled explicitly; fallible code returns
`Except`.  Texts are modelled as lists of (already case-normalised)
whitespace-separated words, which is the granularity at which the
repetition regex `\b(\w+)(?:\s+\1){4,}\b` operates.
-/

namespace DsApi

/-! ## Python rounding

`round(x)` in Python rounds half to even.  `pyRoundQ` is the computable
rational version, `pyRound` the real version used where the source works
with square roots. -/

def pyRoundQ (q : ℚ) : ℤ :=
  if q - ⌊q⌋ < 1/2 then ⌊q⌋
  else if 1/2 < q - ⌊q⌋ then ⌊q⌋ + 1
  else if ⌊q⌋ % 2 = 0 then ⌊q⌋ else ⌊q⌋ + 1

open Classical in
noncomputable def pyRound (x : ℝ) : ℤ :=
  if x - ⌊x⌋ < 1/2 then ⌊x⌋
  else if 1/2 < x - ⌊x⌋ then ⌊x⌋ + 1
  else if ⌊x⌋ % 2 = 0 then ⌊x⌋ else ⌊x⌋ + 1

/-- `round(score, 1)` on a rational score. -/
def round1 (q : ℚ) : ℚ := (pyRoundQ (10 * q) : ℚ) / 10

/-! ## Repetition check (`_check_rep` / `_REP_PATTERN`)

A row matches `\b(\w+)(?:\s+\1){4,}\b` (case-insensitive) iff some word
occurs at least 5 times consecutively.  Texts are word lists, already
lower-cased. -/

abbrev Text := List String

/-- Scan for a run: `cur` is the current word, `cnt` how many times it has
been seen consecutively so far. -/
def repRun (cur : String) (cnt : ℕ) : List String → Bool
  | [] => decide (5 ≤ cnt)
  | w :: ws => if w = cur then repRun cur (cnt + 1) ws
               else decide (5 ≤ cnt) || repRun w 1 ws

def checkRep : Text → Bool
  | [] => false
  | w :: ws => repRun w 1 ws

/-- `_check_rep`: a non-string cell (modelled as `none`) yields 0. -/
def checkRepOpt : Option Text → Bool
  | none => false
  | some t => checkRep t

/-- `k = sum(counts)` where `counts = p.map(_check_rep, texts)`. -/
def countDetections (texts : List (Option Text)) : ℕ :=
  (texts.map (fun t => if checkRepOpt t then 1 else 0)).sum

/-! ## Wilson estimator (`estimate_repetitions_by_sampling`) -/

noncomputable def z : ℝ := 1.96

noncomputable def wilsonDenom (n : ℕ) : ℝ := 1 + z * z / n

noncomputable def wilsonCenter (p : ℝ) (n : ℕ) : ℝ :=
  (p + z * z / (2 * n)) / wilsonDenom n

noncomputable def wilsonMargin (p : ℝ) (n : ℕ) : ℝ :=
  z * Real.sqrt ((p * (1 - p) + z * z / (4 * n)) / n) / wilsonDenom n

noncomputable def wilsonLower (p : ℝ) (n : ℕ) : ℝ :=
  max 0 (wilsonCenter p n - wilsonMargin p n)

noncomputable def wilsonUpper (p : ℝ) (n : ℕ) : ℝ :=
  min 1 (wilsonCenter p n + wilsonMargin p n)

structure RepetitionEstimate where
  sample_n : ℕ
  sample_count : ℕ
  sample_prop : ℝ
  estimate_total : ℤ
  ci_total : ℤ × ℤ
  total_rows : ℕ

open Classical in
noncomputable def estimate_repetitions_by_sampling
    (texts : List (Option Text)) (total_rows : ℕ) (sample_size : ℕ) :
    RepetitionEstimate :=
  let k : ℕ := countDetections texts
  let phat : ℝ := if 0 < sample_size then (k : ℝ) / sample_size else 0
  let lower : ℝ := if sample_size = 0 then 0 else wilsonLower phat sample_size
  let upper : ℝ := if sample_size = 0 then 0 else wilsonUpper phat sample_size
  { sample_n := sample_size
    sample_count := k
    sample_prop := phat
    estimate_total := pyRound (phat * total_rows)
    ci_total := (pyRound (lower * total_rows), pyRound (upper * total_rows))
    total_rows := total_rows }

/-! ## The spec's own Wilson formula (refinement comparison)

These four definitions transcribe the specification sentence
"center=(p̂+z²/2n)/(1+z²/n); margin=z·√(p̂(1-p̂)/n+z²/4n²)/(1+z²/n);
interval=[max(0,center−margin), min(1,center+margin)]" literally; they are
compared against the source-derived `wilson*` definitions above. -/

noncomputable def spec_center (p : ℝ) (n : ℕ) : ℝ :=
  (p + z ^ 2 / (2 * n)) / (1 + z ^ 2 / n)

noncomputable def spec_margin (p : ℝ) (n : ℕ) : ℝ :=
  z * Real.sqrt (p * (1 - p) / n + z ^ 2 / (4 * n ^ 2)) / (1 + z ^ 2 / n)

noncomputable def spec_lower (p : ℝ) (n : ℕ) : ℝ :=
  max 0 (spec_center p n - spec_margin p n)

noncomputable def spec_upper (p : ℝ) (n : ℕ) : ℝ :=
  min 1 (spec_center p n + spec_margin p n)

/-! ## Quality scorer (`derive_quality_score_and_grade`)

Inputs mirror the Python signature: the per-column missing-value dict, the
encoding-issue dict and the html/code/log dict enter only through their
values, so they are modelled as lists of counts; `token_outliers` is the
dict produced by `run_all_checks`; `lang_dist` enters through its values
and its length.  Float threshold literals are modelled by the exact
rationals they denote. -/

structure TokenOutliersS where
  min_tokens : ℤ
  max_tokens : ℤ
  p99_tokens : ℤ
  too_short : ℕ
  too_long : ℕ
  above_p99 : ℕ

def dupPenalty (rate : ℚ) : ℚ :=
  if 5/100 < rate then 30 else if 1/100 < rate then 15 else if 0 < rate then 5 else 0

def missStep (rate : ℚ) : ℚ :=
  if 20/100 < rate then 20 else if 10/100 < rate then 10 else if 1/100 < rate then 3 else 0

def missingPenalty (T : ℚ) (cnts : List ℕ) : ℚ :=
  min ((cnts.map (fun c : ℕ => missStep ((c : ℚ) / T))).sum) 25

def encodingPenalty (T : ℚ) (total : ℕ) : ℚ :=
  if 10/100 < (total : ℚ) / T then 20
  else if 5/100 < (total : ℚ) / T then 10
  else if 0 < total then min ((total : ℚ) / 10) 8 else 0

def p99Penalty (rate : ℚ) : ℚ :=
  if 5/100 < rate then 15 else if 2/100 < rate then 8 else if 0 < rate then 3 else 0

def extremePenalty (rate : ℚ) : ℚ :=
  if 5/100 < rate then 10 else if 0 < rate then 5 else 0

def outlierPenalty (T : ℚ) (o : TokenOutliersS) : ℚ :=
  p99Penalty ((o.above_p99 : ℚ) / T) + extremePenalty (((o.too_short + o.too_long : ℕ) : ℚ) / T)

def alphaPenalty (r : ℚ) : ℚ :=
  if 70/100 < r then 20 else if 50/100 < r then 15
  else if 30/100 < r then 8 else if 20/100 < r then 3 else 0

def repPenalty (T : ℚ) (rep : ℤ) : ℚ :=
  if 10/100 < (rep : ℚ) / T then 15
  else if 5/100 < (rep : ℚ) / T then 10
  else if 2/100 < (rep : ℚ) / T then 5
  else if 0 < rep then 2 else 0

def htmlPenalty (T : ℚ) (total : ℕ) : ℚ :=
  if 20/100 < (total : ℚ) / T then 15
  else if 10/100 < (total : ℚ) / T then 10
  else if 5/100 < (total : ℚ) / T then 5
  else if 0 < total then 2 else 0

/- Language-diversity penalty.  math.log2 forces real arithmetic; the
entropy only ever selects a branch, every penalty value is an integer. -/
open Classical in
noncomputable def langPenalty (lang_dist : List ℕ) : ℚ :=
  if 1 < lang_dist.length then
    let total := lang_dist.sum
    if 0 < total then
      let entropy : ℝ :=
        -((lang_dist.map (fun c =>
            if 0 < c then ((c : ℝ) / total) * Real.logb 2 ((c : ℝ) / total) else 0)).sum)
      let maxEntropy : ℝ := Real.logb 2 lang_dist.length
      if 0 < maxEntropy then
        let ratio := entropy / maxEntropy
        if 8/10 < ratio then 8 else if 6/10 < ratio then 5 else if 4/10 < ratio then 3 else 0
      else 0
    else 0
  else 0

def gradeOf (s : ℚ) : String :=
  if 90 ≤ s then "Excellent"
  else if 80 ≤ s then "Good"
  else if 65 ≤ s then "Fair"
  else if 40 ≤ s then "Poor"
  else "Needs Attention"

noncomputable def derive_quality_score_and_grade
    (total_rows : ℕ) (duplicate_ids duplicate_texts : ℤ)
    (missing_value_count : List ℕ) (encoding_issues : List ℕ)
    (token_outliers : TokenOutliersS) (non_alpha_ratio : ℚ)
    (repetition : ℤ) (html_code_log : List ℕ) (lang_dist : List ℕ) :
    ℚ × String :=
  if total_rows = 0 then (0, "Needs Attention")
  else
    let T : ℚ := total_rows
    let score : ℚ :=
      max 0 (100
        - dupPenalty (((duplicate_ids + duplicate_texts : ℤ) : ℚ) / T)
        - missingPenalty T missing_value_count
        - encodingPenalty T encoding_issues.sum
        - outlierPenalty T token_outliers
        - alphaPenalty non_alpha_ratio
        - repPenalty T repetition
        - htmlPenalty T html_code_log.sum
        - langPenalty lang_dist)
    (round1 score, gradeOf score)

/-! ## Lazy-frame model

A frame is a list of named columns plus the path of the parquet file the
lazy plan scans; a column is either an integer column or a text column,
with `none` for nulls.  Selecting an absent column is the failure polars
raises at `collect` time; the exception's message carries the failing
column name and the "resolved plan until failure" trace, whose
`Parquet SCAN` node names the scanned file path — both are modelled as
payloads of the error value.  Errors raised while executing a collected
plan (`duplicateBreaks`, polars' DuplicateError for non-unique cut
breaks) carry the same trace; `invalidValues` is the plotting service's
own `ValueError` and `noneBin` the pandas `AttributeError` of the
edge-parsing step, neither of which carries a plan trace. -/

inductive Col where
  | ints (xs : List (Option ℤ))
  | texts (xs : List (Option Text))

inductive PolarsError where
  | columnNotFound (col : String) (scanned : String)
  | invalidDtype (col : String) (scanned : String)
  | duplicateBreaks (scanned : String)
  | invalidValues (col : String)
  | noneBin
deriving DecidableEq

structure Frame where
  columns : List (String × Col)
  path : String

def Col.length : Col → ℕ
  | .ints xs => xs.length
  | .texts xs => xs.length

def Col.nullCount : Col → ℕ
  | .ints xs => xs.countP (fun o => o.isNone)
  | .texts xs => xs.countP (fun o => o.isNone)

/-- `n_unique` counts null as one distinct value, as polars does. -/
def Col.nUnique : Col → ℕ
  | .ints xs => xs.dedup.length
  | .texts xs => xs.dedup.length

def findCol : List (String × Col) → String → Option Col
  | [], _ => none
  | (n, c) :: rest, s => if n = s then some c else findCol rest s

/-- `pl.len()`: the row count (all columns of a frame have equal length). -/
def Frame.height (f : Frame) : ℕ :=
  match f.columns with
  | [] => 0
  | (_, c) :: _ => c.length

def getIntCol (f : Frame) (name : String) : Except PolarsError (List (Option ℤ)) :=
  match findCol f.columns name with
  | none => .error (.columnNotFound name f.path)
  | some (.ints xs) => .ok xs
  | some (.texts _) => .error (.invalidDtype name f.path)

def getTextCol (f : Frame) (name : String) : Except PolarsError (List (Option Text)) :=
  match findCol f.columns name with
  | none => .error (.columnNotFound name f.path)
  | some (.texts xs) => .ok xs
  | some (.ints _) => .error (.invalidDtype name f.path)

def listMinZ : List ℤ → Option ℤ
  | [] => none
  | x :: xs =>
    match listMinZ xs with
    | none => some x
    | some m => some (min x m)

def listMaxZ : List ℤ → Option ℤ
  | [] => none
  | x :: xs =>
    match listMaxZ xs with
    | none => some x
    | some m => some (max x m)

/-! ## Histogram binner (`plotting.generate_plot_spec`) -/

/- Index of the cut interval a value falls into, for break list es:
intervals are (-inf, e0], (e0, e1], ..., (e_last, inf), so the index is
the number of breaks strictly below the value. -/
open Classical in
noncomputable def binIdx : List ℝ → ℝ → ℕ
  | [], _ => 0
  | e :: es, x => (if e < x then 1 else 0) + binIdx es x

/-- Per-interval counts over all `es.length + 1` cut intervals (the
dataframe materialises only non-empty groups; the per-interval counts and
their sum are unchanged by that). -/
noncomputable def histCounts (es : List ℝ) (vals : List ℤ) : List ℕ :=
  (List.range (es.length + 1)).map (fun i => (vals.map (fun v : ℤ => binIdx es (v : ℝ))).count i)

/-- `np.logspace(a, b, n, base=2)`: `n` points `2 ^ (a + i*(b-a)/(n-1))`.
For `n = 1` the step divides by zero, which Lean's `x / 0 = 0` turns into
the single point `2 ^ a`, numpy's behaviour as well. -/
noncomputable def logspace2 (a b : ℝ) (n : ℕ) : List ℝ :=
  (List.range n).map (fun i : ℕ => (2 : ℝ) ^ (a + i * (b - a) / ((n : ℝ) - 1)))

noncomputable def binEdges (mn mx : ℤ) (nbins : ℕ) : List ℝ :=
  logspace2 (Real.logb 2 (mn : ℝ)) (Real.logb 2 (mx : ℝ)) nbins

/-- The binning pipeline of `generate_plot_spec` up to the per-bin counts:
min/max and the validity gate come from the requested `column`, the values
that are cut and counted come from the hard-coded `token_count` column.
Polars' `cut` rejects non-unique breaks with a DuplicateError when the
`binned` query is collected; over exact reals the log-spaced breaks
between the column's own min and max are duplicated precisely when
`min = max` with at least two points (`binEdges_replicate` below; for
`min < max` they are pairwise distinct, `binEdges_nodup`), so that is the
branch condition.  A null in `token_count` lands in the null group, whose
label the subsequent pandas edge-parsing step cannot parse (`None.strip`
raises), so it aborts the plot (`noneBin`). -/
noncomputable def generate_plot_spec (f : Frame) (column : String) (nbins : ℕ) :
    Except PolarsError (List ℝ × List ℕ) :=
  match getIntCol f column with
  | .error e => .error e
  | .ok vals =>
    match listMinZ (vals.filterMap id), listMaxZ (vals.filterMap id) with
    | none, _ => .error (.invalidValues column)
    | some _, none => .error (.invalidValues column)
    | some mn, some mx =>
      if mn ≤ 0 then .error (.invalidValues column)
      else
        match getIntCol f "token_count" with
        | .error e => .error e
        | .ok tok =>
          if mn = mx ∧ 2 ≤ nbins then .error (.duplicateBreaks f.path)
          else if 0 < tok.countP (fun o => o.isNone) then .error .noneBin
          else
            let es := binEdges mn mx nbins
            .ok (es, histCounts es (tok.filterMap id))

/-! ## Infinite-width fix-up (`generate_plot_spec`, bin-width block)

After parsing, each materialised bin row has a left edge and a right edge;
the rightmost open bin has right edge `inf`, modelled as `none`.  The code
replaces every infinite `bin_width` with the width of the last finite row
(`df.loc[~inf_mask, "bin_width"].iloc[-1]`), or with the last row's left
edge when the frame has a single row.  (With an empty finite-width
selection and more than one row the source would raise; that shape cannot
arise from the pipeline, where only the rightmost bin is infinite.) -/

structure BinRow where
  left : ℝ
  right : Option ℝ

def rowWidth (r : BinRow) : Option ℝ := r.right.map (fun x => x - r.left)

noncomputable def fix_inf_widths (rows : List BinRow) : List ℝ :=
  let widths := rows.map rowWidth
  if widths.any (fun w => w.isNone) then
    let prev : ℝ :=
      if 1 < rows.length then ((widths.filterMap id).getLast?).getD 0
      else ((rows.map (fun r => r.left)).getLast?).getD 0
    widths.map (fun w => w.getD prev)
  else
    widths.map (fun w => w.getD 0)

/-! ## Quality engine (`run_all_checks`)

The pass-2 string aggregations are fixed regular-expression counters over
a row's text; their innards (which characters count as mojibake etc.) are
irrelevant to every claim, so they enter the model as an arbitrary bundle
of pure per-row functions `TextMeasures` — every theorem below holds for
any instantiation.  `detectLang` stands for `langdetect.detect`;
`detect_lang` maps a per-row failure (e.g. a null cell) to `"unknown"`. -/

structure TextMeasures where
  replacementCount : Text → ℕ
  mojibakeCount : Text → ℕ
  controlCount : Text → ℕ
  htmlLike : Text → Bool
  codeLike : Text → Bool
  logLike : Text → Bool
  nonAlphaRatio : Text → Option ℚ
  detectLang : Text → String

def insertAsc (x : ℤ) : List ℤ → List ℤ
  | [] => [x]
  | y :: ys => if x ≤ y then x :: y :: ys else y :: insertAsc x ys

def sortAsc (xs : List ℤ) : List ℤ := xs.foldr insertAsc []

/-- `pl.col(c).quantile(0.99)` with polars' default "nearest"
interpolation: the element at index `round(0.99 * (n - 1))` of the sorted
non-null values; `none` on an empty/all-null column. -/
def quantile99 (xs : List ℤ) : Option ℤ :=
  let s := sortAsc xs
  match s with
  | [] => none
  | _ => s.get? (Int.toNat ⌊(99 : ℚ) / 100 * ((s.length : ℚ) - 1) + 1/2⌋)

def bumpTally : List (String × ℕ) → String → List (String × ℕ)
  | [], s => [(s, 1)]
  | (t, c) :: rest, s => if t = s then (t, c + 1) :: rest else (t, c) :: bumpTally rest s

def insertByCountDesc (p : String × ℕ) : List (String × ℕ) → List (String × ℕ)
  | [] => [p]
  | q :: rest => if q.2 < p.2 then p :: q :: rest else q :: insertByCountDesc p rest

/-- `dict(sorted(Counter(langs).items(), key=count, reverse=True))`:
first-occurrence tally, then a stable sort by descending count. -/
def lang_tally (ls : List String) : List (String × ℕ) :=
  (ls.foldl bumpTally []).foldr insertByCountDesc []

structure EncodingIssues where
  replacement_char : ℕ
  mojibake : ℕ
  control_chars : ℕ

structure HtmlCodeLog where
  html_like : ℕ
  code_like : ℕ
  log_like : ℕ

structure Bundle where
  row_count : ℕ
  missing_values : List (String × ℕ)
  dup_id : ℤ
  dup_text : ℤ
  encoding_issues : EncodingIssues
  non_alpha_ratio : ℚ
  html_code_log : HtmlCodeLog
  token_outliers : TokenOutliersS
  repetition : RepetitionEstimate
  lang_dist : List (String × ℕ)

/-- Python `int()` truncates toward zero, as `ℤ` division does. -/
def intTrunc (q : ℚ) : ℤ := q.num / (q.den : ℤ)

/- The pure result assembly of run_all_checks once both required columns
resolved.  sel is the set of row indices drawn by the unseeded
pl.col(text).sample(n, shuffle=True); it is not a function of the input
frame.  The "text" literal in column_uniqueness follows the source, which
indexes num_results["unique_text"] by the literal key (and would raise a
KeyError were it run with a text column not named "text"; that path is
not modelled and no claim touches it). -/
noncomputable def build_bundle (M : TextMeasures) (f : Frame)
    (tok : List (Option ℤ)) (txt : List (Option Text))
    (sample_size : ℕ) (sel : List ℕ) : Bundle :=
  let total := f.height
  let somesTok := tok.filterMap id
  let p99 := quantile99 somesTok
  let somesTxt := txt.filterMap id
  let n := min total sample_size
  let sample : List (Option Text) := sel.filterMap (fun i => txt.get? i)
  let ratios := somesTxt.filterMap M.nonAlphaRatio
  { row_count := total
    missing_values := f.columns.map (fun c => (c.1, c.2.nullCount))
    dup_id :=
      match findCol f.columns "id" with
      | some c => (total : ℤ) - c.nUnique
      | none => 0
    dup_text :=
      (total : ℤ) - (match findCol f.columns "text" with
                     | some c => (c.nUnique : ℤ)
                     | none => 0)
    encoding_issues :=
      { replacement_char := (somesTxt.map M.replacementCount).sum
        mojibake := (somesTxt.map M.mojibakeCount).sum
        control_chars := (somesTxt.map M.controlCount).sum }
    non_alpha_ratio := if ratios.length = 0 then 0 else ratios.sum / (ratios.length : ℚ)
    html_code_log :=
      { html_like := somesTxt.countP M.htmlLike
        code_like := somesTxt.countP M.codeLike
        log_like := somesTxt.countP M.logLike }
    token_outliers :=
      { min_tokens := (listMinZ somesTok).getD 0
        max_tokens := (listMaxZ somesTok).getD 0
        p99_tokens := p99.getD 0
        too_short := somesTok.countP (fun v => decide (v < 5))
        too_long := somesTok.countP (fun v => decide (10000 < v))
        above_p99 :=
          match p99 with
          | none => 0
          | some q => somesTok.countP (fun v => decide (q < v)) }
    repetition := estimate_repetitions_by_sampling sample total n
    lang_dist :=
      lang_tally (sample.map (fun o =>
        match o with
        | some t => M.detectLang t
        | none => "unknown")) }

/-- `run_all_checks`: pass 1 (numeric aggregation) resolves the
token-count column first, pass 2 (string aggregation) then resolves the
text column; a missing column surfaces as the polars error of the first
pass that references it, and nothing is computed in its place. -/
noncomputable def run_all_checks (M : TextMeasures) (f : Frame)
    (token_count_col text_column : String) (sample_size : ℕ) (sel : List ℕ) :
    Except PolarsError Bundle :=
  match getIntCol f token_count_col with
  | .error e => .error e
  | .ok tok =>
    match getTextCol f text_column with
    | .error e => .error e
    | .ok txt => .ok (build_bundle M f tok txt sample_size sel)

/-- A valid draw of `sample(n=min(total_rows, sample_size), shuffle=True)`:
distinct in-range row indices of the required cardinality. -/
def validSel (f : Frame) (sample_size : ℕ) (sel : List ℕ) : Prop :=
  sel.Nodup ∧ sel.length = min f.height sample_size ∧ ∀ i ∈ sel, i < f.height

/-! ## API layer (`api/quality.py: basic_check`) -/

/-- A trivial instantiation of the pass-2 pattern counters. -/
def constMeasures : TextMeasures :=
  { replacementCount := fun _ => 0
    mojibakeCount := fun _ => 0
    controlCount := fun _ => 0
    htmlLike := fun _ => false
    codeLike := fun _ => false
    logLike := fun _ => false
    nonAlphaRatio := fun _ => none
    detectLang := fun _ => "en" }

/-- Four rows, two of which contain a 5-fold repeated word. -/
def c9frame : Frame :=
  { columns :=
      [("token_count", .ints [some 1, some 1, some 1, some 1]),
       ("text", .texts
          [some ["x"], some ["y"],
           some ["a", "a", "a", "a", "a"],
           some ["b", "b", "b", "b", "b"]])]
    path := "data/ds/v/1/ds.parquet" }

/-- Requested column `"c"` has a null and only positive non-null values;
`token_count` has a non-positive value. -/
def c5frame : Frame :=
  { columns :=
      [("c", .ints [some 1, none, some 2]),
       ("token_count", .ints [some 0, some 5, some 7])]
    path := "data/dsC/v/1/dsC.parquet" }

/-- Requested column `"c"` spans `[1, 4]`, so the three log-spaced breaks
are the exact, pairwise-distinct powers `[1, 2, 4]`; `token_count`
differs from the requested column. -/
def c10frame : Frame :=
  { columns :=
      [("c", .ints [some 1, some 4]),
       ("token_count", .ints [some 1, some 10])]
    path := "data/dsD/v/1/dsD.parquet" }

/-! ## Helper lemmas: rounding -/

lemma pyRound_intCast (m : ℤ) : pyRound (m : ℝ) = m := by
  unfold pyRound
  rw [Int.floor_intCast]
  norm_num

lemma pyRound_le_intCast {x : ℝ} {m : ℤ} (h : x ≤ (m : ℝ)) : pyRound x ≤ m := by
  have hfl : ⌊x⌋ ≤ m := by
    have := Int.floor_le_floor h
    simpa using this
  unfold pyRound
  split_ifs with h1 h2 h3
  · exact hfl
  · have hx : (⌊x⌋ : ℝ) + 1 / 2 ≤ x := by linarith [not_lt.mp h1]
    have : (⌊x⌋ : ℝ) < (m : ℝ) := by linarith
    have : ⌊x⌋ < m := by exact_mod_cast this
    omega
  · exact hfl
  · have hx : (⌊x⌋ : ℝ) + 1 / 2 ≤ x := by linarith [not_lt.mp h1]
    have : (⌊x⌋ : ℝ) < (m : ℝ) := by linarith
    have : ⌊x⌋ < m := by exact_mod_cast this
    omega

lemma floor_le_pyRoundQ (q : ℚ) : ⌊q⌋ ≤ pyRoundQ q := by
  unfold pyRoundQ
  split_ifs <;> omega

lemma pyRoundQ_le_floor_add_one (q : ℚ) : pyRoundQ q ≤ ⌊q⌋ + 1 := by
  unfold pyRoundQ
  split_ifs <;> omega

lemma pyRoundQ_mono {x y : ℚ} (h : x ≤ y) : pyRoundQ x ≤ pyRoundQ y := by
  have hf : ⌊x⌋ ≤ ⌊y⌋ := Int.floor_le_floor h
  rcases lt_or_eq_of_le hf with hlt | heq
  · calc pyRoundQ x ≤ ⌊x⌋ + 1 := pyRoundQ_le_floor_add_one x
    _ ≤ ⌊y⌋ := by omega
    _ ≤ pyRoundQ y := floor_le_pyRoundQ y
  · have hxf : x - ⌊x⌋ ≤ y - ⌊y⌋ := by
      rw [← heq]; linarith
    unfold pyRoundQ
    rw [← heq]
    split_ifs <;> first | omega | linarith

lemma round1_mono {x y : ℚ} (h : x ≤ y) : round1 x ≤ round1 y := by
  unfold round1
  have h10 : 10 * x ≤ 10 * y := by linarith
  have := pyRoundQ_mono h10
  have hc : ((pyRoundQ (10 * x) : ℚ)) ≤ ((pyRoundQ (10 * y) : ℚ)) := by exact_mod_cast this
  linarith

/-! ## Helper lemmas: the Wilson interval -/

lemma z_pos : 0 < z := by norm_num [z]

lemma wilsonDenom_pos (n : ℕ) : 0 < wilsonDenom n := by
  unfold wilsonDenom
  have hn : (0 : ℝ) ≤ (n : ℝ) := Nat.cast_nonneg n
  have : 0 ≤ z * z / n := div_nonneg (mul_nonneg z_pos.le z_pos.le) hn
  linarith

lemma wilsonMargin_nonneg (p : ℝ) (n : ℕ) : 0 ≤ wilsonMargin p n := by
  unfold wilsonMargin
  exact div_nonneg (mul_nonneg z_pos.le (Real.sqrt_nonneg _)) (wilsonDenom_pos n).le

lemma wilsonCenter_nonneg {p : ℝ} (n : ℕ) (hp : 0 ≤ p) : 0 ≤ wilsonCenter p n := by
  unfold wilsonCenter
  have hn : (0 : ℝ) ≤ (n : ℝ) := Nat.cast_nonneg n
  have h1 : 0 ≤ z * z / (2 * (n : ℝ)) :=
    div_nonneg (mul_nonneg z_pos.le z_pos.le) (by linarith)
  exact div_nonneg (by linarith) (wilsonDenom_pos n).le

lemma wilsonCenter_le_one {p : ℝ} {n : ℕ} (hp : p ≤ 1) (hn : 1 ≤ n) :
    wilsonCenter p n ≤ 1 := by
  unfold wilsonCenter
  rw [div_le_one (wilsonDenom_pos n)]
  unfold wilsonDenom
  have hnR : (1 : ℝ) ≤ (n : ℝ) := by exact_mod_cast hn
  have hzz : 0 ≤ z * z := mul_nonneg z_pos.le z_pos.le
  have hcmp : z * z / (2 * (n : ℝ)) ≤ z * z / (n : ℝ) := by
    apply div_le_div_of_nonneg_left hzz (by linarith) ?_
    linarith
  linarith

lemma wilsonCenter_eq_spec (p : ℝ) (n : ℕ) : wilsonCenter p n = spec_center p n := by
  unfold wilsonCenter spec_center wilsonDenom
  ring_nf

lemma wilsonMargin_eq_spec (p : ℝ) {n : ℕ} (hn : 0 < n) :
    wilsonMargin p n = spec_margin p n := by
  unfold wilsonMargin spec_margin wilsonDenom
  have hne : ((n : ℝ)) ≠ 0 := Nat.cast_ne_zero.mpr hn.ne'
  have harg : (p * (1 - p) + z * z / (4 * (n : ℝ))) / (n : ℝ)
      = p * (1 - p) / (n : ℝ) + z ^ 2 / (4 * (n : ℝ) ^ 2) := by
    field_simp
    ring
  rw [harg]
  ring_nf

lemma wilsonLower_eq_spec (p : ℝ) {n : ℕ} (hn : 0 < n) :
    wilsonLower p n = spec_lower p n := by
  unfold wilsonLower spec_lower
  rw [wilsonCenter_eq_spec, wilsonMargin_eq_spec p hn]

lemma wilsonUpper_eq_spec (p : ℝ) {n : ℕ} (hn : 0 < n) :
    wilsonUpper p n = spec_upper p n := by
  unfold wilsonUpper spec_upper
  rw [wilsonCenter_eq_spec, wilsonMargin_eq_spec p hn]

lemma wilsonLower_nonneg (p : ℝ) (n : ℕ) : 0 ≤ wilsonLower p n := le_max_left 0 _

lemma wilsonUpper_le_one (p : ℝ) (n : ℕ) : wilsonUpper p n ≤ 1 := min_le_left 1 _

lemma wilsonUpper_nonneg {p : ℝ} (n : ℕ) (hp : 0 ≤ p) : 0 ≤ wilsonUpper p n := by
  unfold wilsonUpper
  exact le_min (by norm_num)
    (add_nonneg (wilsonCenter_nonneg n hp) (wilsonMargin_nonneg p n))

lemma wilsonLower_le_one {p : ℝ} {n : ℕ} (hp : p ≤ 1) (hn : 1 ≤ n) :
    wilsonLower p n ≤ 1 := by
  unfold wilsonLower
  have := wilsonCenter_le_one hp hn
  have := wilsonMargin_nonneg p n
  apply max_le (by norm_num)
  linarith

lemma countDetections_le_length (texts : List (Option Text)) :
    countDetections texts ≤ texts.length := by
  induction texts with
  | nil => simp [countDetections]
  | cons t ts ih =>
    simp only [countDetections, List.map_cons, List.sum_cons, List.length_cons] at *
    split_ifs <;> omega

/-! ## Claim C1 -/

/-- C1: for a sample of size `n ≥ 1` with `k` detections and population
`N`, `estimate_repetitions_by_sampling` computes `p̂ = k/n`, the 95% Wilson
interval exactly as the spec's formula writes it (clamped to `[0,1]`),
scales `p̂` and both bounds by `N`, and rounds
`point_estimate_total = round(p̂·N)`; for `n = 0` it returns estimate `0`
and interval `(0, 0)`. -/
theorem wilson_estimator_matches_spec (texts : List (Option Text)) (n N : ℕ)
    (hlen : texts.length = n) :
    (1 ≤ n →
      (estimate_repetitions_by_sampling texts N n).sample_prop
        = (countDetections texts : ℝ) / n
      ∧ (estimate_repetitions_by_sampling texts N n).estimate_total
        = pyRound ((countDetections texts : ℝ) / n * N)
      ∧ (estimate_repetitions_by_sampling texts N n).ci_total
        = (pyRound (spec_lower ((countDetections texts : ℝ) / n) n * N),
           pyRound (spec_upper ((countDetections texts : ℝ) / n) n * N)))
    ∧ (n = 0 →
      (estimate_repetitions_by_sampling texts N n).estimate_total = 0
      ∧ (estimate_repetitions_by_sampling texts N n).ci_total = (0, 0)) := by
  constructor
  · intro hn1
    have hn0 : 0 < n := hn1
    refine ⟨?_, ?_, ?_⟩
    · simp [estimate_repetitions_by_sampling, hn0]
    · simp [estimate_repetitions_by_sampling, hn0]
    · simp only [estimate_repetitions_by_sampling, if_pos hn0, if_neg hn0.ne']
      rw [wilsonLower_eq_spec _ hn0, wilsonUpper_eq_spec _ hn0]
  · intro h0
    subst h0
    have h : pyRound (0 : ℝ) = 0 := by simpa using pyRound_intCast 0
    simp [estimate_repetitions_by_sampling, h]

/-- C1 witness: the theorem at `texts = [some ["hello"]]`, `n = 1`,
`N = 5`. -/
theorem wilson_estimator_matches_spec_witness :
    (estimate_repetitions_by_sampling [some (["hello"] : Text)] 5 1).estimate_total
      = pyRound ((countDetections [some (["hello"] : Text)] : ℝ) / 1 * 5) := by
  exact_mod_cast ((wilson_estimator_matches_spec [some ["hello"]] 1 5 rfl).1 le_rfl).2.1

/-! ## Claim C6 -/

/-- C6: every call of the estimator (with the engine's calling convention
`len(texts) = sample_size`) returns `0 ≤ sample_prop ≤ 1`; the interval's
proportion bounds are clamped to `[0, 1]` before being scaled by
`total_rows`; and for `k = n` the scaled upper bound does not exceed the
population size. -/
theorem sampling_estimate_clamped (texts : List (Option Text)) (n N : ℕ)
    (hlen : texts.length = n) :
    0 ≤ (estimate_repetitions_by_sampling texts N n).sample_prop
    ∧ (estimate_repetitions_by_sampling texts N n).sample_prop ≤ 1
    ∧ (1 ≤ n →
        0 ≤ wilsonLower ((countDetections texts : ℝ) / n) n
        ∧ wilsonLower ((countDetections texts : ℝ) / n) n ≤ 1
        ∧ 0 ≤ wilsonUpper ((countDetections texts : ℝ) / n) n
        ∧ wilsonUpper ((countDetections texts : ℝ) / n) n ≤ 1
        ∧ (estimate_repetitions_by_sampling texts N n).ci_total
            = (pyRound (wilsonLower ((countDetections texts : ℝ) / n) n * N),
               pyRound (wilsonUpper ((countDetections texts : ℝ) / n) n * N)))
    ∧ (countDetections texts = n →
        (estimate_repetitions_by_sampling texts N n).ci_total.2 ≤ (N : ℤ)) := by
  have hk : countDetections texts ≤ n := hlen ▸ countDetections_le_length texts
  have hkR : ((countDetections texts : ℝ)) ≤ (n : ℝ) := by exact_mod_cast hk
  have hphat0 : (0 : ℝ) ≤ (countDetections texts : ℝ) / n :=
    div_nonneg (Nat.cast_nonneg _) (Nat.cast_nonneg _)
  have hphat1 : (countDetections texts : ℝ) / n ≤ 1 := by
    rcases Nat.eq_zero_or_pos n with h0 | hpos
    · subst h0; simp
    · rw [div_le_one (by exact_mod_cast hpos)]
      exact hkR
  refine ⟨?_, ?_, ?_, ?_⟩
  · rcases Nat.eq_zero_or_pos n with h0 | hpos
    · subst h0; simp [estimate_repetitions_by_sampling]
    · simp [estimate_repetitions_by_sampling, hpos, hphat0]
  · rcases Nat.eq_zero_or_pos n with h0 | hpos
    · subst h0; simp [estimate_repetitions_by_sampling]
    · simp only [estimate_repetitions_by_sampling, if_pos hpos]
      exact hphat1
  · intro hn1
    have hpos : 0 < n := hn1
    refine ⟨wilsonLower_nonneg _ _, wilsonLower_le_one hphat1 hn1,
      wilsonUpper_nonneg _ hphat0, wilsonUpper_le_one _ _, ?_⟩
    simp [estimate_repetitions_by_sampling, hpos, hpos.ne']
  · intro hkn
    rcases Nat.eq_zero_or_pos n with h0 | hpos
    · subst h0
      have h : pyRound (0 : ℝ) = 0 := by simpa using pyRound_intCast 0
      simp [estimate_repetitions_by_sampling, h]
    · simp only [estimate_repetitions_by_sampling, if_pos hpos, if_neg hpos.ne']
      apply pyRound_le_intCast
      have hupp : wilsonUpper ((countDetections texts : ℝ) / n) n ≤ 1 :=
        wilsonUpper_le_one _ _
      have hN : (0 : ℝ) ≤ (N : ℝ) := Nat.cast_nonneg N
      calc wilsonUpper ((countDetections texts : ℝ) / n) n * N ≤ 1 * N :=
            mul_le_mul_of_nonneg_right hupp hN
        _ = ((N : ℤ) : ℝ) := by push_cast; ring

/-- C6 witness: the theorem at a one-row sample whose single text is a
detection (`k = n = 1`), population `N = 7`. -/
theorem sampling_estimate_clamped_witness :
    (estimate_repetitions_by_sampling
        [some (["a", "a", "a", "a", "a"] : Text)] 7 1).ci_total.2 ≤ (7 : ℤ) :=
  (sampling_estimate_clamped [some ["a", "a", "a", "a", "a"]] 1 7 rfl).2.2.2
    (by decide)

/-! ## Claim C2 -/

/-- C2: with `total_rows = 0` the scorer short-circuits to score `0.0` and
grade `"Needs Attention"` for every other argument; the early return
precedes every division by `total_rows`, so no division by zero is
evaluated in producing this result. -/
theorem zero_rows_needs_attention (duplicate_ids duplicate_texts : ℤ)
    (missing encoding : List ℕ) (outliers : TokenOutliersS) (non_alpha : ℚ)
    (repetition : ℤ) (html lang : List ℕ) :
    derive_quality_score_and_grade 0 duplicate_ids duplicate_texts missing
      encoding outliers non_alpha repetition html lang = (0, "Needs Attention") := by
  simp [derive_quality_score_and_grade]

/-- C2 witness: the theorem at one concrete argument tuple. -/
theorem zero_rows_needs_attention_witness :
    derive_quality_score_and_grade 0 3 4 [1, 2] [5] ⟨0, 9, 9, 1, 1, 1⟩ (7/10) 2
      [1] [3, 3] = (0, "Needs Attention") :=
  zero_rows_needs_attention 3 4 [1, 2] [5] ⟨0, 9, 9, 1, 1, 1⟩ (7/10) 2 [1] [3, 3]

/-! ## Claim C4 -/

/-- C4: `total_rows = 1000`, `duplicate_ids = 60` (a 6% duplicate rate)
and every other anomaly signal zero with a single language: only the
`-30` duplicate penalty fires, giving score `70.0` and grade `"Fair"`. -/
theorem duplicate_scenario_score :
    derive_quality_score_and_grade 1000 60 0 [0, 0, 0] [0, 0, 0] ⟨0, 0, 0, 0, 0, 0⟩
      0 0 [0, 0, 0] [1000] = (70, "Fair") := by
  norm_num [derive_quality_score_and_grade, dupPenalty, missingPenalty, missStep,
    encodingPenalty, outlierPenalty, p99Penalty, extremePenalty, alphaPenalty,
    repPenalty, htmlPenalty, langPenalty, round1, pyRoundQ, gradeOf]

/-! ## Helper lemmas: penalty monotonicity (claim C3) -/

lemma dupPenalty_mono {r s : ℚ} (h : r ≤ s) : dupPenalty r ≤ dupPenalty s := by
  unfold dupPenalty
  split_ifs <;> linarith

lemma missStep_mono {r s : ℚ} (h : r ≤ s) : missStep r ≤ missStep s := by
  unfold missStep
  split_ifs <;> linarith

lemma p99Penalty_mono {r s : ℚ} (h : r ≤ s) : p99Penalty r ≤ p99Penalty s := by
  unfold p99Penalty
  split_ifs <;> linarith

lemma extremePenalty_mono {r s : ℚ} (h : r ≤ s) : extremePenalty r ≤ extremePenalty s := by
  unfold extremePenalty
  split_ifs <;> linarith

lemma alphaPenalty_mono {r s : ℚ} (h : r ≤ s) : alphaPenalty r ≤ alphaPenalty s := by
  unfold alphaPenalty
  split_ifs <;> linarith

lemma forall2_nat_sum_le {xs ys : List ℕ} (h : List.Forall₂ (· ≤ ·) xs ys) :
    xs.sum ≤ ys.sum := by
  induction h with
  | nil => simp
  | cons hxy _ ih =>
    simp only [List.sum_cons]
    omega

lemma missingPenalty_mono {T : ℚ} (hT : 0 < T) {xs ys : List ℕ}
    (h : List.Forall₂ (· ≤ ·) xs ys) : missingPenalty T xs ≤ missingPenalty T ys := by
  unfold missingPenalty
  apply min_le_min ?_ le_rfl
  induction h with
  | nil => exact le_rfl
  | cons hxy _ ih =>
    simp only [List.map_cons, List.sum_cons]
    refine add_le_add (missStep_mono ?_) ih
    exact div_le_div_of_nonneg_right (Nat.cast_le.mpr hxy) hT.le

lemma encodingPenalty_mono {T : ℚ} (hT : 0 < T) {x y : ℕ} (h : x ≤ y) :
    encodingPenalty T x ≤ encodingPenalty T y := by
  have hxy : (x : ℚ) ≤ (y : ℚ) := Nat.cast_le.mpr h
  have hr : (x : ℚ) / T ≤ (y : ℚ) / T := div_le_div_of_nonneg_right hxy hT.le
  have h10 : (x : ℚ) / 10 ≤ (y : ℚ) / 10 := by linarith
  have hminmono : min ((x : ℚ) / 10) 8 ≤ min ((y : ℚ) / 10) 8 := min_le_min h10 le_rfl
  have hmin8 : min ((x : ℚ) / 10) 8 ≤ 8 := min_le_right _ _
  have hmin0 : (0 : ℚ) ≤ min ((y : ℚ) / 10) 8 :=
    le_min (by positivity) (by norm_num)
  unfold encodingPenalty
  split_ifs <;> first | rfl | linarith

lemma outlierPenalty_mono {T : ℚ} (hT : 0 < T) {o o' : TokenOutliersS}
    (hp : o.above_p99 ≤ o'.above_p99) (hs : o.too_short ≤ o'.too_short)
    (hl : o.too_long ≤ o'.too_long) : outlierPenalty T o ≤ outlierPenalty T o' := by
  unfold outlierPenalty
  have h1 : ((o.above_p99 : ℚ)) / T ≤ (o'.above_p99 : ℚ) / T :=
    div_le_div_of_nonneg_right (Nat.cast_le.mpr hp) hT.le
  have h2 : (((o.too_short + o.too_long : ℕ)) : ℚ) / T
      ≤ (((o'.too_short + o'.too_long : ℕ)) : ℚ) / T :=
    div_le_div_of_nonneg_right (Nat.cast_le.mpr (by omega)) hT.le
  exact add_le_add (p99Penalty_mono h1) (extremePenalty_mono h2)

lemma repPenalty_mono {T : ℚ} (hT : 0 < T) {r s : ℤ} (h : r ≤ s) :
    repPenalty T r ≤ repPenalty T s := by
  have hxy : (r : ℚ) ≤ (s : ℚ) := Int.cast_le.mpr h
  have hr : (r : ℚ) / T ≤ (s : ℚ) / T := div_le_div_of_nonneg_right hxy hT.le
  unfold repPenalty
  split_ifs <;> first | rfl | linarith

lemma htmlPenalty_mono {T : ℚ} (hT : 0 < T) {x y : ℕ} (h : x ≤ y) :
    htmlPenalty T x ≤ htmlPenalty T y := by
  have hxy : (x : ℚ) ≤ (y : ℚ) := Nat.cast_le.mpr h
  have hr : (x : ℚ) / T ≤ (y : ℚ) / T := div_le_div_of_nonneg_right hxy hT.le
  unfold htmlPenalty
  split_ifs <;> first | rfl | linarith

/-! ## Claim C3 -/

/-- C3: with `total_rows > 0` fixed, weakly increasing any combination of
the anomaly signals (duplicates, per-column missing counts, encoding
issues, token outliers, non-alpha ratio, repetition, html/code/log) while
the language distribution stays fixed never increases the returned score;
in particular increasing any single one of them does not. -/
theorem quality_score_monotone
    (total_rows : ℕ) (hT : 0 < total_rows)
    (di di' dt dt' : ℤ) (miss miss' enc enc' : List ℕ) (o o' : TokenOutliersS)
    (nar nar' : ℚ) (rep rep' : ℤ) (html html' : List ℕ) (lang : List ℕ)
    (hdi : di ≤ di') (hdt : dt ≤ dt')
    (hmiss : List.Forall₂ (· ≤ ·) miss miss')
    (henc : List.Forall₂ (· ≤ ·) enc enc')
    (hp99 : o.above_p99 ≤ o'.above_p99) (hshort : o.too_short ≤ o'.too_short)
    (hlong : o.too_long ≤ o'.too_long)
    (hnar : nar ≤ nar') (hrep : rep ≤ rep')
    (hhtml : List.Forall₂ (· ≤ ·) html html') :
    (derive_quality_score_and_grade total_rows di' dt' miss' enc' o' nar' rep'
        html' lang).1
      ≤ (derive_quality_score_and_grade total_rows di dt miss enc o nar rep
        html lang).1 := by
  have hT0 : total_rows ≠ 0 := hT.ne'
  have hTQ : (0 : ℚ) < (total_rows : ℚ) := by exact_mod_cast hT
  have h1 : dupPenalty (((di + dt : ℤ) : ℚ) / (total_rows : ℚ))
      ≤ dupPenalty (((di' + dt' : ℤ) : ℚ) / (total_rows : ℚ)) := by
    apply dupPenalty_mono
    apply div_le_div_of_nonneg_right ?_ hTQ.le
    exact_mod_cast add_le_add hdi hdt
  have h2 := missingPenalty_mono hTQ hmiss
  have h3 := encodingPenalty_mono hTQ (forall2_nat_sum_le henc)
  have h4 := outlierPenalty_mono hTQ hp99 hshort hlong
  have h5 := alphaPenalty_mono hnar
  have h6 := repPenalty_mono hTQ hrep
  have h7 := htmlPenalty_mono hTQ (forall2_nat_sum_le hhtml)
  unfold derive_quality_score_and_grade
  rw [if_neg hT0, if_neg hT0]
  dsimp only
  apply round1_mono
  apply max_le_max le_rfl
  linarith

/-- C3 witness: raising every anomaly signal from zero on a 100-row
dataset does not raise the score. -/
theorem quality_score_monotone_witness :
    (derive_quality_score_and_grade 100 2 0 [5] [1] ⟨0, 0, 0, 1, 0, 2⟩ (1/2) 3 [7]
        [10]).1
      ≤ (derive_quality_score_and_grade 100 0 0 [0] [0] ⟨0, 0, 0, 0, 0, 0⟩ 0 0 [0]
        [10]).1 :=
  quality_score_monotone 100 (by norm_num) 0 2 0 0 [0] [5] [0] [1]
    ⟨0, 0, 0, 0, 0, 0⟩ ⟨0, 0, 0, 1, 0, 2⟩ 0 (1/2) 0 3 [0] [7] [10]
    (by norm_num) (by norm_num)
    (List.Forall₂.cons (by norm_num) List.Forall₂.nil)
    (List.Forall₂.cons (by norm_num) List.Forall₂.nil)
    (by norm_num) (by norm_num) (by norm_num) (by norm_num) (by norm_num)
    (List.Forall₂.cons (by norm_num) List.Forall₂.nil)

/-! ## Helper lemmas: histogram counting -/

lemma sum_map_add {α : Type} (g h : α → ℕ) (l : List α) :
    (l.map (fun x => g x + h x)).sum = (l.map g).sum + (l.map h).sum := by
  induction l with
  | nil => simp
  | cons a l ih =>
    simp only [List.map_cons, List.sum_cons, ih]
    omega

lemma sum_range_ite_one {a m : ℕ} (h : a < m) :
    ((List.range m).map (fun i => if a = i then 1 else 0)).sum = 1 := by
  induction m with
  | zero => omega
  | succ m ih =>
    rw [List.range_succ, List.map_append, List.sum_append]
    rcases Nat.lt_succ_iff_lt_or_eq.mp h with hlt | heq
    · rw [ih hlt]
      simp [Nat.ne_of_lt hlt]
    · subst heq
      have hz : ((List.range a).map (fun i => if a = i then 1 else 0)).sum = 0 := by
        apply List.sum_eq_zero
        intro x hx
        simp only [List.mem_map, List.mem_range] at hx
        obtain ⟨i, hi, hix⟩ := hx
        rw [if_neg (Nat.ne_of_gt hi)] at hix
        omega
      rw [hz]
      simp

lemma sum_range_count_eq_length (l : List ℕ) (m : ℕ) (h : ∀ x ∈ l, x < m) :
    ((List.range m).map (fun i => l.count i)).sum = l.length := by
  induction l with
  | nil =>
    rw [List.sum_eq_zero]
    · simp
    · intro x hx
      simp only [List.mem_map] at hx
      obtain ⟨i, _, hix⟩ := hx
      simp [List.count_nil] at hix
      omega
  | cons a l ih =>
    have ha : a < m := h a (List.mem_cons_self a l)
    have hl : ∀ x ∈ l, x < m := fun x hx => h x (List.mem_cons_of_mem a hx)
    have hstep : ((List.range m).map (fun i => (a :: l).count i)).sum
        = ((List.range m).map (fun i => l.count i + if a = i then 1 else 0)).sum := by
      congr 1
      apply List.map_congr_left
      intro i _
      rw [List.count_cons]
      congr 1
      rcases eq_or_ne a i with hai | hai
      · subst hai
        simp
      · simp [hai, Ne.symm hai]
    rw [hstep, sum_map_add, ih hl, sum_range_ite_one ha]
    simp

lemma binIdx_le (es : List ℝ) (x : ℝ) : binIdx es x ≤ es.length := by
  induction es with
  | nil => simp [binIdx]
  | cons e es ih =>
    simp only [binIdx, List.length_cons]
    split_ifs <;> omega

lemma histCounts_sum (es : List ℝ) (vals : List ℤ) :
    (histCounts es vals).sum = vals.length := by
  unfold histCounts
  rw [sum_range_count_eq_length]
  · rw [List.length_map]
  · intro x hx
    simp only [List.mem_map] at hx
    obtain ⟨v, _, hvx⟩ := hx
    have := binIdx_le es (v : ℝ)
    omega

lemma filterMap_id_length {α : Type} {l : List (Option α)}
    (h : l.countP (fun o => o.isNone) = 0) : (l.filterMap id).length = l.length := by
  induction l with
  | nil => simp
  | cons o l ih =>
    cases o with
    | none => simp [List.countP_cons] at h
    | some a =>
      simp only [List.countP_cons, Option.isNone_some] at h
      simp only [List.filterMap_cons, id, List.length_cons]
      rw [ih (by simpa using h)]

/-- With equal endpoints every log-spaced break is the same point: for
`nbins ≥ 2` the break list is duplicated, which is what polars' `cut`
rejects. -/
lemma binEdges_replicate (mn : ℤ) (n : ℕ) :
    binEdges mn mn n = List.replicate n ((2 : ℝ) ^ Real.logb 2 (mn : ℝ)) := by
  unfold binEdges logspace2
  apply List.eq_replicate_iff.mpr
  constructor
  · simp
  · intro b hb
    simp only [List.mem_map, List.mem_range] at hb
    obtain ⟨i, _, hib⟩ := hb
    rw [← hib]
    norm_num

/-- With `0 < min < max` the log-spaced breaks are strictly increasing in
the exact-real model, hence pairwise distinct: `cut` accepts them. -/
lemma binEdges_nodup {mn mx : ℤ} (h0 : 0 < mn) (hlt : mn < mx) (n : ℕ) :
    (binEdges mn mx n).Nodup := by
  match n with
  | 0 => simp [binEdges, logspace2]
  | 1 => simp [binEdges, logspace2]
  | (k + 2) =>
    have ha : Real.logb 2 (mn : ℝ) < Real.logb 2 (mx : ℝ) := by
      apply Real.logb_lt_logb (by norm_num) (by exact_mod_cast h0)
        (by exact_mod_cast hlt)
    have hc : (0 : ℝ) < ((k + 2 : ℕ) : ℝ) - 1 := by
      push_cast
      linarith
    have hmono : StrictMono (fun i : ℕ => (2 : ℝ) ^ (Real.logb 2 (mn : ℝ)
        + i * (Real.logb 2 (mx : ℝ) - Real.logb 2 (mn : ℝ))
          / (((k + 2 : ℕ) : ℝ) - 1))) := by
      intro i j hij
      apply (Real.rpow_lt_rpow_left_iff (by norm_num)).mpr
      have hnum : (i : ℝ) * (Real.logb 2 (mx : ℝ) - Real.logb 2 (mn : ℝ))
          < (j : ℝ) * (Real.logb 2 (mx : ℝ) - Real.logb 2 (mn : ℝ)) := by
        apply mul_lt_mul_of_pos_right (by exact_mod_cast hij) (by linarith)
      have := (div_lt_div_iff_of_pos_right hc).mpr hnum
      linarith
    unfold binEdges logspace2
    exact List.Nodup.map hmono.injective (List.nodup_range _)

/-- Inversion of the success path of `generate_plot_spec`. -/
lemma gps_ok_inv {f : Frame} {column : String} {nbins : ℕ} {es : List ℝ}
    {cs : List ℕ} (h : generate_plot_spec f column nbins = .ok (es, cs)) :
    ∃ vals tok mn mx,
      getIntCol f column = .ok vals
      ∧ listMinZ (vals.filterMap id) = some mn
      ∧ listMaxZ (vals.filterMap id) = some mx
      ∧ 0 < mn
      ∧ getIntCol f "token_count" = .ok tok
      ∧ tok.countP (fun o => o.isNone) = 0
      ∧ es = binEdges mn mx nbins
      ∧ cs = histCounts es (tok.filterMap id) := by
  unfold generate_plot_spec at h
  split at h
  · cases h
  · rename_i vals hvals
    split at h
    · cases h
    · cases h
    · rename_i mn mx hmn hmx
      split at h
      · cases h
      · rename_i hmn0
        split at h
        · cases h
        · rename_i tok htok
          split at h
          · cases h
          · rename_i hdup
            split at h
            · cases h
            · rename_i hnone
              have hp : es = binEdges mn mx nbins
                  ∧ cs = histCounts (binEdges mn mx nbins) (tok.filterMap id) := by
                have := h
                simp only [Except.ok.injEq, Prod.mk.injEq] at this
                exact ⟨this.1.symm, this.2.symm⟩
              refine ⟨vals, tok, mn, mx, hvals, hmn, hmx, by omega, htok, by omega,
                hp.1, ?_⟩
              rw [hp.2, hp.1]

/-! ## Claim C5 (corrected) -/

/-- C5 counterexample: the requested column `"c"` of `c5frame` is accepted
(min `1 > 0`), yet the produced per-bin counts sum to `3` — the row count
of the hard-coded `token_count` column — while the number of non-null
positive values is `2`, both for the requested column (`[1, null, 2]`) and
for `token_count` (`[0, 5, 7]`, the `0` is still binned and counted). -/
theorem bin_counts_sum_counterexample :
    (∃ es cs, generate_plot_spec c5frame "c" 3 = .ok (es, cs) ∧ cs.sum = 3)
    ∧ (([some 1, none, some 2] : List (Option ℤ)).filterMap id).countP
        (fun v => decide (0 < v)) = 2
    ∧ ([(0 : ℤ), 5, 7].countP (fun v => decide (0 < v))) = 2
    ∧ (3 : ℕ) ≠ 2 := by
  refine ⟨⟨binEdges 1 2 3, histCounts (binEdges 1 2 3) [0, 5, 7], rfl, ?_⟩,
    by decide, by decide, by decide⟩
  rw [histCounts_sum]
  rfl

/-- C5 amended: whenever `generate_plot_spec` produces a histogram, the
per-bin counts sum to the total number of rows of the `token_count`
column (every value of that column is assigned to exactly one `cut`
interval, including values outside the requested column's range and
non-positive values; a null `token_count` aborts the plot instead). -/
theorem bin_counts_sum_token_rows (f : Frame) (column : String) (nbins : ℕ)
    (es : List ℝ) (cs : List ℕ)
    (h : generate_plot_spec f column nbins = .ok (es, cs)) :
    ∃ tok, getIntCol f "token_count" = .ok tok ∧ cs.sum = tok.length := by
  obtain ⟨vals, tok, mn, mx, _, _, _, _, htok, hnone, _, hcs⟩ := gps_ok_inv h
  refine ⟨tok, htok, ?_⟩
  rw [hcs, histCounts_sum]
  exact filterMap_id_length hnone

/-- C5 witness: the amended theorem evaluated on `c5frame`. -/
theorem bin_counts_sum_token_rows_witness :
    ∃ tok, getIntCol c5frame "token_count" = .ok tok
      ∧ (histCounts (binEdges 1 2 3) [0, 5, 7]).sum = tok.length :=
  bin_counts_sum_token_rows c5frame "c" 3 (binEdges 1 2 3)
    (histCounts (binEdges 1 2 3) [0, 5, 7]) rfl

/-! ## Claim C7 -/

lemma rowWidth_of_isSome {r : BinRow} (h : r.right.isSome) :
    rowWidth r = some (r.right.getD 0 - r.left) := by
  unfold rowWidth
  cases hr : r.right with
  | none => rw [hr] at h; simp at h
  | some x => simp [hr]

lemma filterMap_some_map {α β : Type} (f : α → β) (l : List α) :
    (l.map (fun x => some (f x))).filterMap id = l.map f := by
  induction l with
  | nil => rfl
  | cons x l ih => simp [List.filterMap_cons, ih]

lemma map_rowWidth_of_finite {l : List BinRow} (h : ∀ r ∈ l, r.right.isSome) :
    l.map rowWidth = l.map (fun r => some (r.right.getD 0 - r.left)) := by
  apply List.map_congr_left
  intro r hr
  exact rowWidth_of_isSome (h r hr)

/-- C7: when the materialised bins are a block of finite-width rows
followed by the open rightmost bin (right edge `inf`), the fix-up step
leaves every finite width unchanged and assigns the open bin the width of
its left neighbor, i.e. of the last finite row. -/
theorem rightmost_bin_width_from_left_neighbor
    (init : List BinRow) (a b : BinRow)
    (hfin : ∀ r ∈ init ++ [a], r.right.isSome) (hinf : b.right = none) :
    fix_inf_widths (init ++ [a, b])
      = (init ++ [a]).map (fun r => r.right.getD 0 - r.left)
        ++ [a.right.getD 0 - a.left] := by
  have hsplit : init ++ [a, b] = (init ++ [a]) ++ [b] := by simp
  have hwb : rowWidth b = none := by simp [rowWidth, hinf]
  have hmap : (init ++ [a, b]).map rowWidth
      = (init ++ [a]).map (fun r => some (r.right.getD 0 - r.left)) ++ [none] := by
    rw [hsplit, List.map_append, map_rowWidth_of_finite hfin]
    simp [hwb]
  have hany : ((init ++ [a, b]).map rowWidth).any (fun w => w.isNone) = true := by
    rw [hmap]
    simp
  have hlen : 1 < (init ++ [a, b]).length := by
    simp [List.length_append]
  have hfmap : ((init ++ [a]).map (fun r => some (r.right.getD 0 - r.left))
      ++ [(none : Option ℝ)]).filterMap id
      = (init ++ [a]).map (fun r => r.right.getD 0 - r.left) := by
    rw [List.filterMap_append, filterMap_some_map]
    simp
  have hlast : ((init ++ [a]).map (fun r => r.right.getD 0 - r.left)).getLast?
      = some (a.right.getD 0 - a.left) := by
    rw [List.map_append]
    simp
  unfold fix_inf_widths
  rw [if_pos hany, if_pos hlen, hmap, hfmap, hlast]
  rw [List.map_append, List.map_map]
  simp [Function.comp]

/-- C7 witness: bins `(1,2], (2,4], (4, inf)` get widths `[1, 2, 2]`. -/
theorem rightmost_bin_width_from_left_neighbor_witness :
    fix_inf_widths [⟨1, some 2⟩, ⟨2, some 4⟩, ⟨4, none⟩] = [1, 2, 2] := by
  have h := rightmost_bin_width_from_left_neighbor [⟨1, some 2⟩] ⟨2, some 4⟩
    ⟨4, none⟩ (by simp) rfl
  simp only [List.cons_append, List.nil_append, List.map_cons, List.map_nil] at h
  rw [h]
  norm_num

/-! ## Claim C10 -/

/-- C10: a produced histogram's bin edges (and the validity gate) come
from the requested column's min/max, while the per-bin counts are counts
of the `token_count` column's values over those edges; concretely, on
`c10frame` (requested column `[1, 4]`, whose three log-spaced breaks are
the exact distinct powers `[1, 2, 4]`; `token_count` `[1, 10]`) the
reported counts are those of `token_count` and differ from the counts of
the requested column's own values. -/
theorem token_count_binning_mismatch (f : Frame) (column : String) (nbins : ℕ)
    (es : List ℝ) (cs : List ℕ)
    (h : generate_plot_spec f column nbins = .ok (es, cs)) :
    (∃ vals tok mn mx,
        getIntCol f column = .ok vals
        ∧ listMinZ (vals.filterMap id) = some mn
        ∧ listMaxZ (vals.filterMap id) = some mx
        ∧ 0 < mn
        ∧ getIntCol f "token_count" = .ok tok
        ∧ es = binEdges mn mx nbins
        ∧ cs = histCounts es (tok.filterMap id))
    ∧ (∃ es0 cs0, generate_plot_spec c10frame "c" 3 = .ok (es0, cs0)
        ∧ cs0 = histCounts es0 [1, 10]
        ∧ cs0 ≠ histCounts es0 [1, 4]) := by
  constructor
  · obtain ⟨vals, tok, mn, mx, hvals, hmn, hmx, hmn0, htok, _, hes, hcs⟩ :=
      gps_ok_inv h
    exact ⟨vals, tok, mn, mx, hvals, hmn, hmx, hmn0, htok, hes, hcs⟩
  · refine ⟨binEdges 1 4 3, histCounts (binEdges 1 4 3) [1, 10], rfl, rfl, ?_⟩
    have hlog4 : Real.logb 2 (4 : ℝ) = 2 := by
      have h4 : (4 : ℝ) = (2 : ℝ) ^ (2 : ℝ) := by
        have hn := Real.rpow_natCast (2 : ℝ) 2
        push_cast at hn
        rw [hn]
        norm_num
      rw [h4, Real.logb_rpow (by norm_num) (by norm_num)]
    have hes : binEdges 1 4 3 = [(1 : ℝ), 2, 4] := by
      simp only [binEdges, logspace2, List.range_succ, List.range_zero,
        List.map_append, List.map_cons, List.map_nil, List.nil_append,
        List.cons_append]
      push_cast
      rw [Real.logb_one, hlog4]
      norm_num
    rw [hes]
    have hb1 : binIdx [(1 : ℝ), 2, 4] ((1 : ℤ) : ℝ) = 0 := by
      norm_num [binIdx]
    have hb10 : binIdx [(1 : ℝ), 2, 4] ((10 : ℤ) : ℝ) = 3 := by
      norm_num [binIdx]
    have hb4 : binIdx [(1 : ℝ), 2, 4] ((4 : ℤ) : ℝ) = 2 := by
      norm_num [binIdx]
    have hc1 : histCounts [(1 : ℝ), 2, 4] [1, 10] = [1, 0, 0, 1] := by
      unfold histCounts
      simp only [List.map_cons, List.map_nil, hb1, hb10]
      rfl
    have hc2 : histCounts [(1 : ℝ), 2, 4] [1, 4] = [1, 0, 1, 0] := by
      unfold histCounts
      simp only [List.map_cons, List.map_nil, hb1, hb4]
      rfl
    rw [hc1, hc2]
    decide

/-- C10 witness: the theorem applied to `c10frame` itself. -/
theorem token_count_binning_mismatch_witness :
    (∃ vals tok mn mx,
        getIntCol c10frame "c" = .ok vals
        ∧ listMinZ (vals.filterMap id) = some mn
        ∧ listMaxZ (vals.filterMap id) = some mx
        ∧ 0 < mn
        ∧ getIntCol c10frame "token_count" = .ok tok
        ∧ binEdges 1 4 3 = binEdges mn mx 3
        ∧ histCounts (binEdges 1 4 3) [1, 10]
            = histCounts (binEdges 1 4 3) (tok.filterMap id))
    ∧ (∃ es0 cs0, generate_plot_spec c10frame "c" 3 = .ok (es0, cs0)
        ∧ cs0 = histCounts es0 [1, 10]
        ∧ cs0 ≠ histCounts es0 [1, 4]) :=
  token_count_binning_mismatch c10frame "c" 3 (binEdges 1 4 3)
    (histCounts (binEdges 1 4 3) [1, 10]) rfl

/-! ## Claim C8 -/

lemma pyRound_eq_of_eq_intCast {x : ℝ} {m : ℤ} (h : x = (m : ℝ)) :
    pyRound x = m := h ▸ pyRound_intCast m

/-- C9: the repetition estimate of the bundle depends on which rows the
unseeded `sample(shuffle=True)` draw selects, not only on the input frame
and parameters: on `c9frame` with `sample_size = 2`, the draws `[0, 1]`
and `[2, 3]` are both valid, yet yield `estimate_total` `0` and `4`
respectively, so two fresh runs on identical inputs can produce different
bundles — for every instantiation of the pass-2 pattern counters. -/
theorem run_all_checks_sample_dependent (M : TextMeasures) :
    validSel c9frame 2 [0, 1] ∧ validSel c9frame 2 [2, 3]
    ∧ Except.map (fun b => b.repetition.estimate_total)
        (run_all_checks M c9frame "token_count" "text" 2 [0, 1]) = .ok 0
    ∧ Except.map (fun b => b.repetition.estimate_total)
        (run_all_checks M c9frame "token_count" "text" 2 [2, 3]) = .ok 4
    ∧ run_all_checks M c9frame "token_count" "text" 2 [0, 1]
        ≠ run_all_checks M c9frame "token_count" "text" 2 [2, 3] := by
  have hk1 : countDetections [some (["x"] : Text), some ["y"]] = 0 := by decide
  have hk2 : countDetections
      [some (["a", "a", "a", "a", "a"] : Text), some ["b", "b", "b", "b", "b"]]
        = 2 := by decide
  have hproj1 : Except.map (fun b => b.repetition.estimate_total)
      (run_all_checks M c9frame "token_count" "text" 2 [0, 1]) = .ok 0 := by
    simp only [run_all_checks, getIntCol, getTextCol, findCol, c9frame,
      build_bundle, Frame.height, Col.length, if_pos, if_neg]
    simp [estimate_repetitions_by_sampling, hk1, Except.map]
    exact pyRound_eq_of_eq_intCast (by norm_num)
  have hproj2 : Except.map (fun b => b.repetition.estimate_total)
      (run_all_checks M c9frame "token_count" "text" 2 [2, 3]) = .ok 4 := by
    simp only [run_all_checks, getIntCol, getTextCol, findCol, c9frame,
      build_bundle, Frame.height, Col.length, if_pos, if_neg]
    simp [estimate_repetitions_by_sampling, hk2, Except.map]
    exact pyRound_eq_of_eq_intCast (by norm_num)
  refine ⟨?_, ?_, hproj1, hproj2, ?_⟩
  · unfold validSel
    exact ⟨by decide, by decide, by decide⟩
  · unfold validSel
    exact ⟨by decide, by decide, by decide⟩
  · intro hEq
    rw [hEq] at hproj1
    rw [hproj1] at hproj2
    simp at hproj2

/-- C9 witness: the divergence at the trivial pattern-counter
instantiation. -/
theorem run_all_checks_sample_dependent_witness :
    run_all_checks constMeasures c9frame "token_count" "text" 2 [0, 1]
      ≠ run_all_checks constMeasures c9frame "token_count" "text" 2 [2, 3] :=
  (run_all_checks_sample_dependent constMeasures).2.2.2.2

end DsApi
